import Mathlib

/-!
Shallow embedding of the trace post-processing script `dumper.py`.

Strings are modelled as lists of characters (`Str`).  The script's global
`data` list is the `input` parameter of `pipeline`.  File reads are modelled
by a filesystem function `FS : Str → Option (List Str)`; an unreadable file
(`none`) makes the corresponding stage return `Except.error ()`, matching the
uncaught `IOError` of `open(...)` in the script.  `line` and `column` of a
frame are 1-based (as produced by the tracer and stated by the data model);
the embedding uses `Nat` subtraction for the `- 1` adjustments, so the
Python behaviour at the out-of-model values `line = 0` / `column = 0`
(negative indexing) is not represented and no theorem below quantifies
over those values.
-/

abbrev Str := List Char

inductive EvType
  | transition
  | annot
deriving DecidableEq, Repr

/-- One call-stack entry, as in the event dictionaries of `dumper.py`:
`file`, `line`, `column`, `function`, and the computed `contents`
(absent, i.e. `none`, before frame resolution). -/
structure Frame where
  file : Str
  line : Nat
  column : Nat
  function : Str
  contents : Option Str := none
deriving DecidableEq, Repr

/-- One event dictionary.  Transitions carry `address`, `thread`,
`does_write`, `description`, `trace`; the script later stores the computed
`relevant` flag on them.  The fields that the script never reads for the
other variant are given defaults. -/
structure Event where
  type : EvType
  address : Str := []
  thread : Nat := 0
  does_write : Bool := false
  description : Str := []
  trace : List Frame := []
  relevant : Bool := false
deriving DecidableEq, Repr

/-! ### Stage 1: writers/readers accumulation (dumper.py lines 4-12) -/

/-- `m[a].add(th)` on a `defaultdict(set)` modelled as a function into
`Finset Nat`. -/
def updFn (m : Str → Finset Nat) (a : Str) (th : Nat) : Str → Finset Nat :=
  fun x => if x = a then insert th (m x) else m x

/-- Body of the first `for t in data` loop: writers get the thread when
`does_write`, readers otherwise; non-transitions are skipped. -/
def buildStep (acc : (Str → Finset Nat) × (Str → Finset Nat)) (t : Event) :
    (Str → Finset Nat) × (Str → Finset Nat) :=
  if t.type = EvType.transition then
    if t.does_write then (updFn acc.1 t.address t.thread, acc.2)
    else (acc.1, updFn acc.2 t.address t.thread)
  else acc

/-- The pair (writers, readers) accumulated over the whole event list. -/
def buildSets (evs : List Event) : (Str → Finset Nat) × (Str → Finset Nat) :=
  evs.foldl buildStep (fun _ => ∅, fun _ => ∅)

/-! ### Stage 2: relevance and description annotation (lines 14-22) -/

/-- The character class `[0-9a-f]` of `address_pat`. -/
def hexDigits : Str := "0123456789abcdef".data

def isHexDigit (c : Char) : Bool := hexDigits.contains c

/-- The replacement template of `address_pat.sub`:
the match `m` becomes `<span class="addr p` ++ m ++ `">` ++ m ++ `</span>`. -/
def wrapAddr (m : Str) : Str :=
  "<span class=\"addr p".data ++ m ++ "\">".data ++ m ++ "</span>".data

/-- One-pass scanner implementing `address_pat.sub` for the pattern
`(0x[0-9a-f]*)`: the left-to-right, non-overlapping, greedy scan of
`re.sub`.  The second argument is `none` outside a match and
`some acc` inside one, where `acc` holds (reversed) the hex digits read
since the opening `0x`.  A match starts wherever the text reads `0x` and
extends over the maximal run of hex digits; every character outside a
match is copied unchanged.  When a match ends at a non-digit `c`, no new
match can start at `c` (a match starts with the digit `0`), so the scan
safely emits `c` and continues after it. -/
def annGo : Str → Option Str → Str
  | [], none => []
  | [], some acc => wrapAddr ('0' :: 'x' :: acc.reverse)
  | '0' :: 'x' :: rest, none => annGo rest (some [])
  | c :: rest, none => c :: annGo rest none
  | c :: rest, some acc =>
    if isHexDigit c then annGo rest (some (c :: acc))
    else wrapAddr ('0' :: 'x' :: acc.reverse) ++ c :: annGo rest none

/-- `t['description'] = address_pat.sub(r'<span class="addr p\1">\1</span>',
t['description'])`. -/
def annotate (s : Str) : Str := annGo s none

/-- The boolean `len(writers[a]) > 1 or len(writers[a]) == 1 and
len(readers[a] - writers[a]) > 0`, as a function of the two sets. -/
def relevantSets (w r : Finset Nat) : Bool :=
  decide (1 < w.card) || (decide (w.card = 1) && decide (0 < (r \ w).card))

/-- Body of the second `for t in data` loop: set `relevant` and rewrite
`description` on transitions, leave other events untouched. -/
def classify (ws rs : Str → Finset Nat) (t : Event) : Event :=
  if t.type = EvType.transition then
    { t with relevant := relevantSets (ws t.address) (rs t.address),
             description := annotate t.description }
  else t

def stage2 (ws rs : Str → Finset Nat) (evs : List Event) : List Event :=
  evs.map (classify ws rs)

/-! ### Stage 3: frame resolution and trace filtering (lines 24-48) -/

/-- The scan alphabet of the token highlighter (the string literal on
line 36 of the script). -/
def tokChars : Str :=
  "abcdefghijkmnlopqrstuvwxyzABCDEFGHIJKLMNOPQRSTUVWXYZ_1234567890:.->".data

/-- Lines 33-41: split the line at `b = column - 1`, scan the token, and
reassemble; the `<i>`/`</i>` markers are commented out in the source, so
the reassembly inserts nothing. -/
def highlight (a : Str) (column : Nat) : Str :=
  let b := column - 1
  if b < a.length then
    a.take b ++ (a.drop b).takeWhile (fun c => tokChars.contains c) ++
      (a.drop b).dropWhile (fun c => tokChars.contains c)
  else a

abbrev FS := Str → Option (List Str)

abbrev Cache := List (Str × List Str)

/-- The `files` cache: reuse a cached read, otherwise read through the
filesystem, failing when the file is unreadable. -/
def readFile (fs : FS) (cache : Cache) (f : Str) :
    Except Unit (Cache × List Str) :=
  match cache.lookup f with
  | some ls => Except.ok (cache, ls)
  | none =>
    match fs f with
    | some ls => Except.ok ((f, ls) :: cache, ls)
    | none => Except.error ()

/-- Resolve one frame: fetch the file, index line `line - 1`, and store the
highlighted line as `contents`. -/
def resolveFrame (fs : FS) (cache : Cache) (l : Frame) :
    Except Unit (Cache × Frame) :=
  match readFile fs cache l.file with
  | Except.error e => Except.error e
  | Except.ok (c, lines) =>
    match lines.get? (l.line - 1) with
    | none => Except.error ()
    | some a => Except.ok (c, { l with contents := some (highlight a l.column) })

def resolveTrace (fs : FS) (cache : Cache) :
    List Frame → Except Unit (Cache × List Frame)
  | [] => Except.ok (cache, [])
  | l :: tr =>
    match resolveFrame fs cache l with
    | Except.error e => Except.error e
    | Except.ok (c, l') =>
      match resolveTrace fs c tr with
      | Except.error e => Except.error e
      | Except.ok (c', tr') => Except.ok (c', l' :: tr')

def hasPre : Str → Str → Bool
  | [], _ => true
  | _ :: _, [] => false
  | a :: as, b :: bs => a == b && hasPre as bs

/-- Python's `needle in haystack` substring test. -/
def hasSub (n : Str) : Str → Bool
  | [] => n.isEmpty
  | c :: cs => hasPre n (c :: cs) || hasSub n cs

def atomicStr : Str := "::atomic".data
def atomicBaseStr : Str := "__atomic_base".data
def casStr : Str := "boost::lockfree::CAS".data
def taggedStr : Str := "boost::lockfree::tagged_ptr".data

/-- The four successive trace comprehensions of lines 45-48. -/
def filterTrace (tr : List Frame) : List Frame :=
  ((((tr.filter (fun l => !hasSub atomicStr l.function)).filter
      (fun l => !hasSub atomicBaseStr l.function)).filter
      (fun l => !hasSub casStr l.function)).filter
      (fun l => !hasSub taggedStr l.function))

/-- Stage-3 body for one event: transitions get every frame resolved and the
trace filtered; other events are untouched. -/
def resolveEvent (fs : FS) (cache : Cache) (t : Event) :
    Except Unit (Cache × Event) :=
  if t.type = EvType.transition then
    match resolveTrace fs cache t.trace with
    | Except.error e => Except.error e
    | Except.ok (c, tr) => Except.ok (c, { t with trace := filterTrace tr })
  else Except.ok (cache, t)

def resolveAll (fs : FS) (cache : Cache) :
    List Event → Except Unit (Cache × List Event)
  | [] => Except.ok (cache, [])
  | t :: ts =>
    match resolveEvent fs cache t with
    | Except.error e => Except.error e
    | Except.ok (c, t') =>
      match resolveAll fs c ts with
      | Except.error e => Except.error e
      | Except.ok (c', ts') => Except.ok (c', t' :: ts')

/-! ### Stage 4: whole-event drop comprehensions (lines 50-53) -/

def gpStr : Str := "guards.protect".data
def ahpStr : Str := "AllocateHPRec".data
def hpaStr : Str := "HPAllocator".data
def guardStr : Str := "Guard".data

/-- `l['contents']` as read by the first drop comprehension; transitions
reaching that comprehension always have `contents` populated. -/
def contentsOf (l : Frame) : Str := l.contents.getD []

/-- The four successive event comprehensions of lines 50-53. -/
def dropStage (evs : List Event) : List Event :=
  ((((evs.filter (fun t => t.type == EvType.annot ||
        t.trace.all (fun l => !hasSub gpStr (contentsOf l)))).filter
      (fun t => t.type == EvType.annot ||
        t.trace.all (fun l => !hasSub ahpStr l.function))).filter
      (fun t => t.type == EvType.annot ||
        t.trace.all (fun l => !hasSub hpaStr l.function))).filter
      (fun t => t.type == EvType.annot ||
        t.trace.all (fun l => !hasSub guardStr l.function)))

/-- The whole script (stages 1-4, in source order), from the initial `data`
list to the final `data` list handed to the presentation layer. -/
def pipeline (fs : FS) (input : List Event) : Except Unit (List Event) :=
  let ws := (buildSets input).1
  let rs := (buildSets input).2
  let evs2 := stage2 ws rs input
  match resolveAll fs [] evs2 with
  | Except.error e => Except.error e
  | Except.ok (_, evs3) => Except.ok (dropStage evs3)

/-! ### Derived predicates used to state the claims -/

/-- A frame matches the frame-level denylist (lines 45-48) when its
`function` contains one of the four substrings. -/
def frameDeny (l : Frame) : Bool :=
  hasSub atomicStr l.function || hasSub atomicBaseStr l.function ||
    hasSub casStr l.function || hasSub taggedStr l.function

/-- A frame matches the event-level denylist (lines 50-53) when its
`contents` contains `guards.protect` or its `function` contains one of
`AllocateHPRec`, `HPAllocator`, `Guard`. -/
def eventDeny (l : Frame) : Bool :=
  hasSub gpStr (contentsOf l) || hasSub ahpStr l.function ||
    hasSub hpaStr l.function || hasSub guardStr l.function

/-- An event with its trace blanked: two events agree on `eraseTrace`
exactly when they agree on every field other than the trace. -/
def eraseTrace (t : Event) : Event := { t with trace := [] }

/-- Every cached entry agrees with the filesystem; holds for the empty
cache and is preserved by every read. -/
def cacheOK (fs : FS) (c : Cache) : Prop :=
  ∀ p ls, c.lookup p = some ls → fs p = some ls

/-- Reference reading of `writers`: the threads of the writing transitions
at address `a`, taken from the full event list. -/
def writersSpec (evs : List Event) (a : Str) : Finset Nat :=
  ((evs.filter (fun t =>
      decide (t.type = EvType.transition) && t.does_write &&
        decide (t.address = a))).map Event.thread).toFinset

/-- Reference reading of `readers`: the threads of the reading transitions
at address `a`, taken from the full event list. -/
def readersSpec (evs : List Event) (a : Str) : Finset Nat :=
  ((evs.filter (fun t =>
      decide (t.type = EvType.transition) && !t.does_write &&
        decide (t.address = a))).map Event.thread).toFinset

/-- Declarative decomposition of a `re.sub` pass for `(0x[0-9a-f]*)`:
`SubSpec s out` states that `out` arises from `s` by wrapping every
(leftmost, maximal, non-overlapping) match `0x[0-9a-f]*` with `wrapAddr`
and copying every character outside the matches unchanged.
`addr` consumes one maximal match (the remainder must not start with a
further hex digit); `copy` consumes one character at a position where no
match starts. -/
inductive SubSpec : Str → Str → Prop
  | nil : SubSpec [] []
  | addr (ds rest out : Str) :
      (∀ c ∈ ds, isHexDigit c = true) →
      (∀ c cs, rest = c :: cs → isHexDigit c = false) →
      SubSpec rest out →
      SubSpec ('0' :: 'x' :: (ds ++ rest)) (wrapAddr ('0' :: 'x' :: ds) ++ out)
  | copy (c : Char) (rest out : Str) :
      ¬(c = '0' ∧ rest.take 1 = ['x']) →
      SubSpec rest out →
      SubSpec (c :: rest) (c :: out)

/-! ### Concrete fixtures used by counterexamples and witnesses -/

def oxStr : Str := "0x".data

def addrA : Str := ['a']

def fs0 : FS := fun _ => none

/-- A writing transition with an empty trace. -/
def evW : Event :=
  { type := EvType.transition, address := addrA, thread := 1, does_write := true }

def fileF : Str := ['f']

def lineTxt : Str := "int x = 1;".data

/-- A filesystem with the single readable one-line file `f`. -/
def fsF : FS := fun p => if p = fileF then some [lineTxt] else none

def frGuard : Frame :=
  { file := fileF, line := 1, column := 1, function := "Guard".data }

def frMain : Frame :=
  { file := fileF, line := 1, column := 1, function := "main".data }

def frAtomic : Frame :=
  { file := fileF, line := 1, column := 1, function := "std::atomic".data }

/-- A transition whose trace mixes one event-denylisted frame (`Guard`)
with one innocuous frame (`main`). -/
def evGM : Event :=
  { type := EvType.transition, address := addrA, thread := 1,
    does_write := true, trace := [frGuard, frMain] }

/-- An event of the other variant whose only frame is frame-denylisted. -/
def annA : Event := { type := EvType.annot, trace := [frAtomic] }

/-- A transition referencing a file the filesystem cannot read. -/
def evBad : Event :=
  { type := EvType.transition, address := addrA, thread := 1,
    does_write := true, trace := [frGuard] }

/-! ### Helper lemmas -/

lemma mem_stage2_relevant {ws rs : Str → Finset Nat} {evs : List Event}
    {t : Event} (ht : t ∈ stage2 ws rs evs) (htt : t.type = EvType.transition) :
    t.relevant = relevantSets (ws t.address) (rs t.address) := by
  rcases List.mem_map.mp ht with ⟨t0, _, rfl⟩
  by_cases h : t0.type = EvType.transition
  · simp [classify, h]
  · rw [classify, if_neg h] at htt ⊢
    exact absurd htt h

lemma highlight_eq_self (a : Str) (col : Nat) : highlight a col = a := by
  rw [highlight]
  split
  · rw [List.append_assoc, List.takeWhile_append_dropWhile, List.take_append_drop]
  · rfl

/-- C1: for every Transition produced by the classification stage, the
computed `relevant` flag is `relevantSets` applied to the writer and reader
sets of the event's address only (hence independent of the transition's own
`thread` and `does_write`); moreover writers `{a}` with readers `{a}` give
`false` and writers `{a}` with readers `{a, b}` (`a ≠ b`) give `true`. -/
theorem c1_relevant_rule :
    (∀ (ws rs : Str → Finset Nat) (evs : List Event) (t : Event),
        t ∈ stage2 ws rs evs → t.type = EvType.transition →
        t.relevant = relevantSets (ws t.address) (rs t.address)) ∧
    (∀ a b : Nat, a ≠ b →
        relevantSets {a} {a} = false ∧ relevantSets {a} {a, b} = true) := by
  constructor
  · exact fun ws rs evs t ht htt => mem_stage2_relevant ht htt
  · intro a b hab
    constructor
    · simp [relevantSets]
    · have hb : b ∈ ({a, b} : Finset Nat) \ {a} := by
        simp [Finset.mem_sdiff]
        exact fun h => absurd h.symm hab
      have hpos : 0 < (({a, b} : Finset Nat) \ {a}).card :=
        Finset.card_pos.mpr ⟨b, hb⟩
      simp [relevantSets, hpos]

theorem c1_witness :
    (classify (fun _ => ({1} : Finset Nat)) (fun _ => ∅) evW).relevant =
        relevantSets {1} ∅ ∧
    relevantSets {1} {1} = false ∧ relevantSets {1} {1, 2} = true :=
  ⟨c1_relevant_rule.1 (fun _ => {1}) (fun _ => ∅) [evW]
      (classify (fun _ => {1}) (fun _ => ∅) evW)
      (List.mem_map.mpr ⟨evW, List.mem_singleton.mpr rfl, rfl⟩) rfl,
    (c1_relevant_rule.2 1 2 (by decide)).1,
    (c1_relevant_rule.2 1 2 (by decide)).2⟩

/-- C8: adding a writer thread never turns `relevant` from true to false. -/
theorem c8_monotone (w r : Finset Nat) (t : Nat)
    (h : relevantSets w r = true) : relevantSets (insert t w) r = true := by
  rw [relevantSets] at h ⊢
  rw [Bool.or_eq_true] at h
  rcases h with h1 | h2
  · have h1' : 1 < w.card := of_decide_eq_true h1
    have hlt : 1 < (insert t w).card :=
      lt_of_lt_of_le h1' (Finset.card_le_card (Finset.subset_insert t w))
    simp [hlt]
  · rw [Bool.and_eq_true] at h2
    rcases h2 with ⟨hc, hd⟩
    have hc' : w.card = 1 := of_decide_eq_true hc
    by_cases ht : t ∈ w
    · rw [Finset.insert_eq_self.mpr ht]
      rw [Bool.or_eq_true, Bool.and_eq_true]
      exact Or.inr ⟨hc, hd⟩
    · have h2c : (insert t w).card = 2 := by
        rw [Finset.card_insert_of_not_mem ht, hc']
      simp [h2c]

theorem c8_witness :
    relevantSets {1} {2} = true ∧ relevantSets (insert 3 {1}) {2} = true :=
  ⟨by decide, c8_monotone {1} {2} 3 (by decide)⟩

lemma cacheOK_nil (fs : FS) : cacheOK fs [] := by
  intro p ls h
  simp [List.lookup] at h

lemma readFile_ok {fs : FS} {c : Cache} {f : Str} {c' : Cache} {ls : List Str}
    (hok : cacheOK fs c) (h : readFile fs c f = Except.ok (c', ls)) :
    fs f = some ls ∧ cacheOK fs c' := by
  unfold readFile at h
  cases hl : c.lookup f with
  | some ls0 =>
    rw [hl] at h
    simp only [Except.ok.injEq, Prod.mk.injEq] at h
    obtain ⟨hc, hls⟩ := h
    subst hc; subst hls
    exact ⟨hok f ls0 hl, hok⟩
  | none =>
    rw [hl] at h
    cases hf : fs f with
    | some ls0 =>
      rw [hf] at h
      simp only [Except.ok.injEq, Prod.mk.injEq] at h
      obtain ⟨hc, hls⟩ := h
      subst hc; subst hls
      refine ⟨rfl, ?_⟩
      intro p ls1 hp
      simp only [List.lookup] at hp
      cases hpf : (p == f) with
      | true =>
        rw [hpf] at hp
        simp only [Option.some.injEq] at hp
        subst hp
        rw [eq_of_beq hpf]
        exact hf
      | false =>
        rw [hpf] at hp
        exact hok p ls1 hp
    | none =>
      rw [hf] at h
      exact absurd h (by simp)

lemma readFile_none {fs : FS} {c : Cache} {f : Str}
    (hok : cacheOK fs c) (hf : fs f = none) :
    readFile fs c f = Except.error () := by
  unfold readFile
  cases hl : c.lookup f with
  | some ls =>
    have := hok f ls hl
    rw [hf] at this
    exact absurd this (by simp)
  | none =>
    rw [hf]

lemma resolveFrame_ok {fs : FS} {c : Cache} {l : Frame} {c' : Cache} {l' : Frame}
    (hok : cacheOK fs c) (h : resolveFrame fs c l = Except.ok (c', l')) :
    cacheOK fs c' ∧ ∃ lines a, fs l.file = some lines ∧
      lines.get? (l.line - 1) = some a ∧
      l' = { l with contents := some (highlight a l.column) } := by
  unfold resolveFrame at h
  split at h
  · exact absurd h (by simp)
  · rename_i c1 lines hr
    split at h
    · exact absurd h (by simp)
    · rename_i a hg
      obtain ⟨hfs, hok1⟩ := readFile_ok hok hr
      simp only [Except.ok.injEq, Prod.mk.injEq] at h
      obtain ⟨hc, hl'⟩ := h
      subst hc
      exact ⟨hok1, lines, a, hfs, hg, hl'.symm⟩

/-- C10: the token scan reassembles the line with nothing inserted, so for
every readable frame the resolved `contents` is exactly the referenced
source line. -/
theorem c10_contents_identity :
    (∀ (a : Str) (col : Nat), 1 ≤ col → highlight a col = a) ∧
    (∀ (fs : FS) (c c' : Cache) (l l' : Frame),
        cacheOK fs c → 1 ≤ l.column →
        resolveFrame fs c l = Except.ok (c', l') →
        ∃ lines a, fs l.file = some lines ∧
          lines.get? (l.line - 1) = some a ∧ l'.contents = some a) := by
  constructor
  · exact fun a col _ => highlight_eq_self a col
  · intro fs c c' l l' hok _ h
    obtain ⟨_, lines, a, hfs, hg, hl'⟩ := resolveFrame_ok hok h
    exact ⟨lines, a, hfs, hg, by rw [hl', highlight_eq_self]⟩

theorem c10_witness :
    highlight lineTxt 3 = lineTxt ∧
    ∃ lines a, fsF frMain.file = some lines ∧
      lines.get? (frMain.line - 1) = some a ∧
      ({ frMain with contents := some lineTxt } : Frame).contents = some a :=
  ⟨c10_contents_identity.1 lineTxt 3 (by decide),
   c10_contents_identity.2 fsF [] [(fileF, [lineTxt])] frMain
     { frMain with contents := some lineTxt }
     (cacheOK_nil fsF) (by decide) rfl⟩

lemma resolveEvent_fields {fs : FS} {c : Cache} {t : Event} {c' : Cache}
    {t' : Event} (h : resolveEvent fs c t = Except.ok (c', t')) :
    eraseTrace t' = eraseTrace t := by
  unfold resolveEvent at h
  split at h
  · split at h
    · exact absurd h (by simp)
    · rename_i c2 tr hr
      simp only [Except.ok.injEq, Prod.mk.injEq] at h
      rw [← h.2]
      rfl
  · simp only [Except.ok.injEq, Prod.mk.injEq] at h
    rw [← h.2]

lemma resolveEvent_annot {fs : FS} {c : Cache} {t : Event}
    (h : t.type = EvType.annot) : resolveEvent fs c t = Except.ok (c, t) := by
  simp [resolveEvent, h]

lemma resolveAll_fields {fs : FS} {evs : List Event} :
    ∀ {c : Cache} {c' : Cache} {evs' : List Event},
    resolveAll fs c evs = Except.ok (c', evs') →
    evs'.map eraseTrace = evs.map eraseTrace := by
  induction evs with
  | nil =>
    intro c c' evs' h
    unfold resolveAll at h
    simp only [Except.ok.injEq, Prod.mk.injEq] at h
    rw [← h.2]
  | cons t ts ih =>
    intro c c' evs' h
    unfold resolveAll at h
    split at h
    · exact absurd h (by simp)
    · rename_i c1 t1 he
      split at h
      · exact absurd h (by simp)
      · rename_i c2 ts2 hall
        simp only [Except.ok.injEq, Prod.mk.injEq] at h
        rw [← h.2]
        simp only [List.map_cons]
        rw [resolveEvent_fields he, ih hall]

lemma dropStage_sublist (evs : List Event) : List.Sublist (dropStage evs) evs :=
  ((((List.filter_sublist _).trans (List.filter_sublist _)).trans
      (List.filter_sublist _)).trans (List.filter_sublist _))

lemma pipeline_ok_erase {fs : FS} {input out : List Event}
    (h : pipeline fs input = Except.ok out) :
    List.Sublist (out.map eraseTrace)
      ((stage2 (buildSets input).1 (buildSets input).2 input).map eraseTrace) := by
  simp only [pipeline] at h
  split at h
  · exact absurd h (by simp)
  · rename_i c evs3 hall
    simp only [Except.ok.injEq] at h
    rw [← h]
    rw [← resolveAll_fields hall]
    exact List.Sublist.map eraseTrace (dropStage_sublist evs3)

lemma pipeline_ok_relevant {fs : FS} {input out : List Event}
    (h : pipeline fs input = Except.ok out) {t : Event} (ht : t ∈ out)
    (htt : t.type = EvType.transition) :
    t.relevant = relevantSets ((buildSets input).1 t.address)
      ((buildSets input).2 t.address) := by
  have hmem := (pipeline_ok_erase h).subset
    (List.mem_map_of_mem eraseTrace ht)
  rcases List.mem_map.mp hmem with ⟨t0, ht0, heq⟩
  have hrel := congrArg Event.relevant heq
  have haddr := congrArg Event.address heq
  have htyp := congrArg Event.type heq
  simp only [eraseTrace] at hrel haddr htyp
  rw [← hrel, ← haddr]
  exact mem_stage2_relevant ht0 (htyp.trans htt)

lemma writersSpec_cons (t : Event) (ts : List Event) (a : Str) :
    writersSpec (t :: ts) a =
      if t.type = EvType.transition ∧ t.does_write = true ∧ t.address = a
      then insert t.thread (writersSpec ts a) else writersSpec ts a := by
  by_cases h1 : t.type = EvType.transition <;>
    by_cases h2 : t.does_write = true <;>
      by_cases h3 : t.address = a <;>
        simp [writersSpec, List.filter_cons, h1, h2, h3]

lemma readersSpec_cons (t : Event) (ts : List Event) (a : Str) :
    readersSpec (t :: ts) a =
      if t.type = EvType.transition ∧ t.does_write = false ∧ t.address = a
      then insert t.thread (readersSpec ts a) else readersSpec ts a := by
  by_cases h1 : t.type = EvType.transition <;>
    by_cases h2 : t.does_write = true <;>
      by_cases h3 : t.address = a <;>
        simp [readersSpec, List.filter_cons, h1, h2, h3]

lemma buildSets_go (evs : List Event) :
    ∀ (acc : (Str → Finset Nat) × (Str → Finset Nat)) (a : Str),
    (evs.foldl buildStep acc).1 a = acc.1 a ∪ writersSpec evs a ∧
    (evs.foldl buildStep acc).2 a = acc.2 a ∪ readersSpec evs a := by
  induction evs with
  | nil =>
    intro acc a
    simp [writersSpec, readersSpec]
  | cons t ts ih =>
    intro acc a
    rw [List.foldl_cons, writersSpec_cons, readersSpec_cons]
    obtain ⟨ihw, ihr⟩ := ih (buildStep acc t) a
    rw [ihw, ihr]
    by_cases h1 : t.type = EvType.transition <;>
      by_cases h2 : t.does_write = true <;>
        by_cases h3 : t.address = a
    · constructor
      · rw [if_pos ⟨h1, h2, h3⟩]
        simp [buildStep, updFn, h1, h2, h3, Finset.insert_union,
          Finset.union_insert]
      · rw [if_neg (by simp [h2])]
        simp [buildStep, h1, h2]
    · have h3' : ¬(a = t.address) := fun hh => h3 hh.symm
      constructor
      · rw [if_neg (by simp [h3])]
        simp [buildStep, updFn, h1, h2, h3']
      · rw [if_neg (by simp [h2])]
        simp [buildStep, h1, h2]
    · constructor
      · rw [if_neg (by simp [h2])]
        simp [buildStep, h1, h2]
      · rw [if_pos ⟨h1, by simpa using h2, h3⟩]
        simp [buildStep, updFn, h1, h2, h3, Finset.insert_union,
          Finset.union_insert]
    · have h3' : ¬(a = t.address) := fun hh => h3 hh.symm
      constructor
      · rw [if_neg (by simp [h2])]
        simp [buildStep, h1, h2]
      · rw [if_neg (by simp [h3])]
        simp [buildStep, updFn, h1, h2, h3']
    · constructor
      · rw [if_neg (by simp [h1])]
        simp [buildStep, h1]
      · rw [if_neg (by simp [h1])]
        simp [buildStep, h1]
    · constructor
      · rw [if_neg (by simp [h1])]
        simp [buildStep, h1]
      · rw [if_neg (by simp [h1])]
        simp [buildStep, h1]
    · constructor
      · rw [if_neg (by simp [h1])]
        simp [buildStep, h1]
      · rw [if_neg (by simp [h1])]
        simp [buildStep, h1]
    · constructor
      · rw [if_neg (by simp [h1])]
        simp [buildStep, h1]
      · rw [if_neg (by simp [h1])]
        simp [buildStep, h1]

/-- C4: the writer and reader sets accumulated by the first loop are exactly
the per-address thread sets of the full, unfiltered input (transitions only,
split on `does_write`), and every transition surviving the whole pipeline
carries a `relevant` flag computed from those full-input sets — independent
of the later filtering stages. -/
theorem c4_access_sets :
    (∀ (evs : List Event) (a : Str),
        (buildSets evs).1 a = writersSpec evs a ∧
        (buildSets evs).2 a = readersSpec evs a) ∧
    (∀ (fs : FS) (input out : List Event),
        pipeline fs input = Except.ok out →
        ∀ t ∈ out, t.type = EvType.transition →
        t.relevant = relevantSets (writersSpec input t.address)
          (readersSpec input t.address)) := by
  constructor
  · intro evs a
    obtain ⟨hw, hr⟩ := buildSets_go evs (fun _ => ∅, fun _ => ∅) a
    rw [buildSets, hw, hr]
    simp
  · intro fs input out h t ht htt
    have h1 := pipeline_ok_relevant h ht htt
    obtain ⟨hw, hr⟩ := buildSets_go input (fun _ => ∅, fun _ => ∅) t.address
    rw [buildSets] at h1
    rw [hw, hr] at h1
    simpa using h1

theorem c4_witness :
    (buildSets [evW]).1 addrA = writersSpec [evW] addrA ∧
    evW.relevant = relevantSets (writersSpec [evW] evW.address)
      (readersSpec [evW] evW.address) :=
  ⟨(c4_access_sets.1 [evW] addrA).1,
   c4_access_sets.2 fs0 [evW] [evW] rfl evW (List.mem_singleton.mpr rfl) rfl⟩

/-- C9: the sanitization stages change only traces and preserve order: the
final output, with traces blanked, is an order-preserving sublist of the
classification-stage list with traces blanked — so every surviving event
keeps its `address`, `thread`, `does_write`, `relevant` and `description`
exactly as computed by the classification/annotation stage. -/
theorem c9_fields_order (fs : FS) (input out : List Event)
    (h : pipeline fs input = Except.ok out) :
    List.Sublist (out.map eraseTrace)
      ((stage2 (buildSets input).1 (buildSets input).2 input).map eraseTrace) :=
  pipeline_ok_erase h

theorem c9_witness :
    List.Sublist (([evW] : List Event).map eraseTrace)
      ((stage2 (buildSets [evW]).1 (buildSets [evW]).2 [evW]).map eraseTrace) :=
  c9_fields_order fs0 [evW] [evW] rfl

lemma filterTrace_eq (tr : List Frame) :
    filterTrace tr = tr.filter (fun l => !frameDeny l) := by
  unfold filterTrace
  rw [List.filter_filter, List.filter_filter, List.filter_filter]
  apply List.filter_congr
  intro l _
  simp only [frameDeny, Bool.not_or]
  cases hasSub atomicStr l.function <;> cases hasSub atomicBaseStr l.function <;>
    cases hasSub casStr l.function <;> cases hasSub taggedStr l.function <;> rfl

lemma dropStage_mem {evs : List Event} {t : Event} (ht : t ∈ evs) :
    t ∈ dropStage evs ↔
      (t.type = EvType.annot ∨ ∀ l ∈ t.trace, eventDeny l = false) := by
  unfold dropStage
  simp only [List.mem_filter, ht, true_and]
  cases htype : t.type with
  | annot => simp [htype]
  | transition =>
    simp only [htype, show (EvType.transition == EvType.annot) = false from rfl,
      Bool.false_or, List.all_eq_true, Bool.not_eq_true']
    constructor
    · rintro ⟨⟨⟨h1, h2⟩, h3⟩, h4⟩
      refine Or.inr fun l hl => ?_
      simp [eventDeny, h1 l hl, h2 l hl, h3 l hl, h4 l hl]
    · rintro (hcontra | hall)
      · exact absurd hcontra (by decide)
      · refine ⟨⟨⟨fun l hl => ?_, fun l hl => ?_⟩, fun l hl => ?_⟩,
          fun l hl => ?_⟩ <;>
        · have hd := hall l hl
          simp [eventDeny] at hd
          tauto

/-- C2 counterexample: with the readable one-line file `f`, the transition
`evGM` (frames `Guard` and `main`, both surviving the frame-level filter
with resolved contents `lineTxt`) is dropped from the final output, yet its
remaining frame `main` matches no event-level denylist entry — refuting
"dropped iff every remaining frame matches". -/
theorem c2_counterexample :
    pipeline fsF [evGM] = Except.ok [] ∧
    eventDeny { frMain with contents := some lineTxt } = false :=
  ⟨rfl, by decide⟩

/-- C2 (amended): a Transition is dropped by the event-level stage iff SOME
frame of its (already frame-filtered, contents-resolved) trace matches the
event-level denylist; an event of the other variant is never dropped. -/
theorem c2_drop_amended :
    ∀ (evs : List Event) (t : Event), t ∈ evs →
      (t ∈ dropStage evs ↔
        (t.type = EvType.annot ∨ ∀ l ∈ t.trace, eventDeny l = false)) :=
  fun _ _ ht => dropStage_mem ht

theorem c2_witness :
    annA ∈ dropStage [annA] ↔
      (annA.type = EvType.annot ∨ ∀ l ∈ annA.trace, eventDeny l = false) :=
  c2_drop_amended [annA] annA (List.mem_singleton.mpr rfl)

/-- C3 counterexample: the event `annA` of the non-transition variant
passes through the whole pipeline completely untouched although its only
frame's `function` (`std::atomic`) contains the frame-denylist entry
`::atomic` — refuting "the frame-level filter is applied to every event's
trace, including Annotation events". -/
theorem c3_counterexample :
    pipeline fs0 [annA] = Except.ok [annA] ∧
    annA.trace = [frAtomic] ∧
    hasSub atomicStr frAtomic.function = true :=
  ⟨rfl, rfl, by decide⟩

/-- C3 (amended): the frame-level filter is applied only to Transition
traces; there it removes exactly the frames whose `function` matches the
frame-level denylist, keeping the others in order (`List.filter`), while
events of the other variant are passed through stage 3 entirely
unchanged. -/
theorem c3_frame_filter_amended :
    (∀ tr : List Frame, filterTrace tr = tr.filter (fun l => !frameDeny l)) ∧
    (∀ (fs : FS) (c : Cache) (t : Event), t.type = EvType.annot →
        resolveEvent fs c t = Except.ok (c, t)) :=
  ⟨filterTrace_eq, fun _ _ _ h => resolveEvent_annot h⟩

theorem c3_witness :
    filterTrace [frAtomic, frMain] = [frMain] ∧
    resolveEvent fs0 [] annA = Except.ok ([], annA) :=
  ⟨(c3_frame_filter_amended.1 [frAtomic, frMain]).trans (by decide),
   c3_frame_filter_amended.2 fs0 [] annA rfl⟩

lemma resolveFrame_err {fs : FS} {c : Cache} {l : Frame}
    (hok : cacheOK fs c) (hf : fs l.file = none) :
    resolveFrame fs c l = Except.error () := by
  unfold resolveFrame
  rw [readFile_none hok hf]

lemma resolveTrace_cacheOK {fs : FS} {tr : List Frame} :
    ∀ {c c' : Cache} {tr' : List Frame}, cacheOK fs c →
    resolveTrace fs c tr = Except.ok (c', tr') → cacheOK fs c' := by
  induction tr with
  | nil =>
    intro c c' tr' hok h
    unfold resolveTrace at h
    simp only [Except.ok.injEq, Prod.mk.injEq] at h
    rw [← h.1]
    exact hok
  | cons l tr ih =>
    intro c c' tr' hok h
    unfold resolveTrace at h
    split at h
    · exact absurd h (by simp)
    · rename_i c1 l1 hr
      split at h
      · exact absurd h (by simp)
      · rename_i c2 tr2 hrt
        simp only [Except.ok.injEq, Prod.mk.injEq] at h
        rw [← h.1]
        exact ih (resolveFrame_ok hok hr).1 hrt

lemma resolveTrace_err {fs : FS} {tr : List Frame} :
    ∀ {c : Cache}, cacheOK fs c → (∃ l ∈ tr, fs l.file = none) →
    resolveTrace fs c tr = Except.error () := by
  induction tr with
  | nil =>
    rintro c _ ⟨l, hl, _⟩
    exact absurd hl (List.not_mem_nil l)
  | cons l0 tr ih =>
    rintro c hok ⟨l, hl, hf⟩
    unfold resolveTrace
    rcases List.mem_cons.mp hl with rfl | hl'
    · rw [resolveFrame_err hok hf]
    · cases hr : resolveFrame fs c l0 with
      | error e =>
        cases e
        rfl
      | ok p =>
        obtain ⟨c1, l1⟩ := p
        have hok1 := (resolveFrame_ok hok hr).1
        simp only [ih hok1 ⟨l, hl', hf⟩]

lemma resolveEvent_cacheOK {fs : FS} {c : Cache} {t : Event} {c' : Cache}
    {t' : Event} (hok : cacheOK fs c)
    (h : resolveEvent fs c t = Except.ok (c', t')) : cacheOK fs c' := by
  unfold resolveEvent at h
  split at h
  · split at h
    · exact absurd h (by simp)
    · rename_i c2 tr hr
      simp only [Except.ok.injEq, Prod.mk.injEq] at h
      rw [← h.1]
      exact resolveTrace_cacheOK hok hr
  · simp only [Except.ok.injEq, Prod.mk.injEq] at h
    rw [← h.1]
    exact hok

lemma resolveEvent_err {fs : FS} {c : Cache} {t : Event} (hok : cacheOK fs c)
    (htt : t.type = EvType.transition)
    (hbad : ∃ l ∈ t.trace, fs l.file = none) :
    resolveEvent fs c t = Except.error () := by
  unfold resolveEvent
  rw [if_pos htt, resolveTrace_err hok hbad]

lemma resolveAll_err {fs : FS} {evs : List Event} :
    ∀ {c : Cache}, cacheOK fs c →
    (∃ t ∈ evs, t.type = EvType.transition ∧ ∃ l ∈ t.trace, fs l.file = none) →
    resolveAll fs c evs = Except.error () := by
  induction evs with
  | nil =>
    rintro c _ ⟨t, hmem, _⟩
    exact absurd hmem (List.not_mem_nil t)
  | cons t0 ts ih =>
    rintro c hok ⟨t, hmem, htt, hbad⟩
    unfold resolveAll
    rcases List.mem_cons.mp hmem with rfl | hts
    · rw [resolveEvent_err hok htt hbad]
    · cases he : resolveEvent fs c t0 with
      | error e =>
        cases e
        rfl
      | ok p =>
        obtain ⟨c1, t1⟩ := p
        have hok1 := resolveEvent_cacheOK hok he
        simp only [ih hok1 ⟨t, hts, htt, hbad⟩]

lemma classify_type (ws rs : Str → Finset Nat) (t : Event) :
    (classify ws rs t).type = t.type := by
  unfold classify
  split <;> rfl

lemma classify_trace (ws rs : Str → Finset Nat) (t : Event) :
    (classify ws rs t).trace = t.trace := by
  unfold classify
  split <;> rfl

/-- C7 counterexample: with an unreadable filesystem, a run containing a
transition whose frame references a missing file fails as a whole
(`Except.error`), instead of skipping that frame and continuing with the
remaining events. -/
theorem c7_counterexample : pipeline fs0 [evBad, evW] = Except.error () := rfl

/-- C7 (amended): whenever any transition's frame references an unreadable
file, frame resolution propagates the failure and the whole pipeline run
fails with an error; no per-frame skipping takes place. -/
theorem c7_error_amended (fs : FS) (input : List Event)
    (h : ∃ t ∈ input, t.type = EvType.transition ∧
        ∃ l ∈ t.trace, fs l.file = none) :
    pipeline fs input = Except.error () := by
  obtain ⟨t, hmem, htt, l, hl, hf⟩ := h
  simp only [pipeline]
  have hbad2 : ∃ t2 ∈ stage2 (buildSets input).1 (buildSets input).2 input,
      t2.type = EvType.transition ∧ ∃ l2 ∈ t2.trace, fs l2.file = none := by
    refine ⟨classify (buildSets input).1 (buildSets input).2 t,
      List.mem_map_of_mem _ hmem, ?_, l, ?_, hf⟩
    · rw [classify_type]
      exact htt
    · rw [classify_trace]
      exact hl
  rw [resolveAll_err (cacheOK_nil fs) hbad2]

theorem c7_witness : pipeline fs0 [evBad] = Except.error () :=
  c7_error_amended fs0 [evBad]
    ⟨evBad, List.mem_singleton.mpr rfl, rfl, frGuard,
      List.mem_singleton.mpr rfl, rfl⟩

lemma dropWhile_head_false {p : Char → Bool} :
    ∀ {l : Str} {c : Char} {cs : Str}, l.dropWhile p = c :: cs → p c = false := by
  intro l
  induction l with
  | nil =>
    intro c cs h
    simp [List.dropWhile] at h
  | cons a as ih =>
    intro c cs h
    rw [List.dropWhile_cons] at h
    by_cases hp : p a
    · rw [if_pos hp] at h
      exact ih h
    · rw [if_neg hp] at h
      injection h with h1 _
      rw [← h1]
      simpa using hp

lemma annGo_some : ∀ (rest acc : Str),
    annGo rest (some acc) =
      wrapAddr ('0' :: 'x' :: (acc.reverse ++ rest.takeWhile isHexDigit)) ++
        (match rest.dropWhile isHexDigit with
         | [] => []
         | c :: r => c :: annGo r none) := by
  intro rest
  induction rest with
  | nil =>
    intro acc
    simp [annGo]
  | cons c r ih =>
    intro acc
    simp only [annGo]
    by_cases hc : isHexDigit c
    · rw [if_pos hc, ih (c :: acc)]
      simp [hc, List.takeWhile_cons, List.dropWhile_cons, List.append_assoc]
    · rw [if_neg hc]
      simp [hc, List.takeWhile_cons, List.dropWhile_cons]

lemma annGo_cons_none (c : Char) (rest : Str)
    (h : ¬(c = '0' ∧ rest.take 1 = ['x'])) :
    annGo (c :: rest) none = c :: annGo rest none := by
  by_cases hc : c = '0'
  · subst hc
    cases rest with
    | nil => rfl
    | cons c2 r2 =>
      by_cases hx : c2 = 'x'
      · subst hx
        exact absurd ⟨rfl, by simp [List.take]⟩ h
      · rw [annGo.eq_def]
        split <;> simp_all <;> tauto
  · rw [annGo.eq_def]
    split <;> simp_all

/-- C5: the annotator realizes the declarative substitution relation: every
(leftmost, maximal, non-overlapping) `0x[0-9a-f]*` match is wrapped with
`wrapAddr`, and every character outside the matches is copied unchanged,
for any number of matches including zero. -/
theorem c5_annotate_spec : ∀ s : Str, SubSpec s (annotate s) := by
  have main : ∀ (n : Nat) (s : Str), s.length ≤ n → SubSpec s (annGo s none) := by
    intro n
    induction n with
    | zero =>
      intro s hs
      rw [List.length_eq_zero.mp (Nat.le_zero.mp hs)]
      exact SubSpec.nil
    | succ n ih =>
      intro s hs
      cases s with
      | nil => exact SubSpec.nil
      | cons c rest =>
        by_cases h0 : c = '0' ∧ rest.take 1 = ['x']
        · obtain ⟨hc, hx⟩ := h0
          subst hc
          obtain ⟨rt, rfl⟩ : ∃ rt, rest = 'x' :: rt := by
            cases rest with
            | nil => simp at hx
            | cons c2 r2 =>
              have hc2 : c2 = 'x' := by simpa [List.take] using hx
              exact ⟨r2, by rw [hc2]⟩
          have hstep : annGo ('0' :: 'x' :: rt) none = annGo rt (some []) := rfl
          rw [hstep, annGo_some]
          simp only [List.reverse_nil, List.nil_append]
          cases hd : rt.dropWhile isHexDigit with
          | nil =>
            have hrt : rt.takeWhile isHexDigit = rt := by
              conv_rhs => rw [← List.takeWhile_append_dropWhile
                (p := isHexDigit) (l := rt)]
              rw [hd, List.append_nil]
            have hall : ∀ x ∈ rt, isHexDigit x = true := fun x hxm =>
              List.mem_takeWhile_imp (x := x) (hrt.symm ▸ hxm)
            have hspec := SubSpec.addr rt [] [] hall
              (fun c cs hcs => nomatch hcs) SubSpec.nil
            simpa [hrt] using hspec
          | cons cd rd =>
            have hcd : isHexDigit cd = false := dropWhile_head_false hd
            have hsplit : rt.takeWhile isHexDigit ++ (cd :: rd) = rt := by
              conv_rhs => rw [← List.takeWhile_append_dropWhile
                (p := isHexDigit) (l := rt)]
              rw [hd]
            have hall : ∀ x ∈ rt.takeWhile isHexDigit, isHexDigit x = true :=
              fun x hxm => List.mem_takeWhile_imp hxm
            have hlen : rd.length ≤ n := by
              have h1 : (rt.dropWhile isHexDigit).length ≤ rt.length :=
                (List.dropWhile_suffix _).length_le
              rw [hd] at h1
              simp only [List.length_cons] at h1 hs
              omega
            have hcopy : SubSpec (cd :: rd) (cd :: annGo rd none) :=
              SubSpec.copy cd rd _
                (fun hh => by rw [hh.1] at hcd; exact absurd hcd (by decide))
                (ih rd hlen)
            have hspec := SubSpec.addr (rt.takeWhile isHexDigit) (cd :: rd)
              (cd :: annGo rd none) hall
              (fun c cs hcs => by
                injection hcs with h1 _
                rw [← h1]
                exact hcd)
              hcopy
            rw [show ('0' :: 'x' :: rt) =
              ('0' :: 'x' :: (rt.takeWhile isHexDigit ++ (cd :: rd)))
              from by rw [hsplit]]
            simpa using hspec
        · rw [annGo_cons_none c rest h0]
          have hlen : rest.length ≤ n := by
            simp only [List.length_cons] at hs
            omega
          exact SubSpec.copy c rest _ h0 (ih rest hlen)
  intro s
  exact main s.length s le_rfl

lemma annotate_no_match : ∀ s : Str, hasSub oxStr s = false → annGo s none = s := by
  intro s
  induction s with
  | nil => intro _; rfl
  | cons c rest ih =>
    intro h
    rw [hasSub] at h
    rw [Bool.or_eq_false_iff] at h
    obtain ⟨h1, h2⟩ := h
    have hno : ¬(c = '0' ∧ rest.take 1 = ['x']) := by
      rintro ⟨rfl, hx⟩
      obtain ⟨rt, rfl⟩ : ∃ rt, rest = 'x' :: rt := by
        cases rest with
        | nil => simp at hx
        | cons c2 r2 =>
          have hc2 : c2 = 'x' := by simpa [List.take] using hx
          exact ⟨r2, by rw [hc2]⟩
      simp [hasPre, oxStr] at h1
    rw [annGo_cons_none c rest hno, ih h2]

/-- C6 counterexample: the annotator is not idempotent — applying it twice
to the description `0x` re-wraps the address substrings appearing inside
the inserted marker, giving a different string than a single application. -/
theorem c6_counterexample :
    annotate (annotate oxStr) ≠ annotate oxStr := by decide

/-- C6 (amended): the annotator is not idempotent in general (it re-wraps
address literals that appear inside previously inserted markers); it is the
identity — and hence idempotent — exactly on descriptions containing no
`0x` substring. -/
theorem c6_idempotent_amended :
    ∀ s : Str, hasSub oxStr s = false →
      annotate s = s ∧ annotate (annotate s) = annotate s := by
  intro s h
  have h1 : annotate s = s := annotate_no_match s h
  exact ⟨h1, by rw [h1, h1]⟩

theorem c6_witness :
    hasSub oxStr ("abc".data) = false ∧
    annotate ("abc".data) = "abc".data ∧
    annotate (annotate ("abc".data)) = annotate ("abc".data) :=
  ⟨by decide, (c6_idempotent_amended ("abc".data) (by decide)).1,
    (c6_idempotent_amended ("abc".data) (by decide)).2⟩
